import Mathlib

/-!
Verification of the anchoring / highlighting / layout core of the
tonys-file-cabinet document reader.

The DOM subtree rendered into the article container is modelled as a tree of
nodes.  Text data is modelled as `List Char` (DOM strings); element attributes
(including `data-annotation-id`, the class and the inline style written by the
highlighter) are modelled as key/value pairs.  A *live node reference* inside
the article root is modelled by its child-index path from the root: in the
browser two sibling nodes are distinct object references even when they hold
equal data, and a reference determines a unique position in the tree, so the
path is a faithful stand-in for the reference.
-/

inductive DomNode where
  | text (data : List Char)
  | elem (tag : String) (attrs : List (String × String)) (children : List DomNode)

/-- `node.childNodes` — text nodes expose an empty child list. -/
def childNodes : DomNode → List DomNode
  | .text _ => []
  | .elem _ _ cs => cs

/-- `node.length` as used by range endpoints: character count for text nodes,
child count for elements. -/
def nodeLength : DomNode → Nat
  | .text s => s.length
  | .elem _ _ cs => cs.length

mutual

/-- The text content of a node: concatenation of all text data in tree order. -/
def textChars : DomNode → List Char
  | .text s => s
  | .elem _ _ cs => textCharsList cs

/-- Text content of a forest of siblings, in order. -/
def textCharsList : List DomNode → List Char
  | [] => []
  | c :: cs => textChars c ++ textCharsList cs

end

/-!  ## Anchor codec (`src/app/sessions.server.ts`, dom-annotations part)

`SerializedRange` mirrors the exported interface: two node paths with
character offsets plus the selected text kept for verification. -/

structure SerializedRange where
  startPath : List Nat
  startOffset : Nat
  endPath : List Nat
  endOffset : Nat
  text : List Char
deriving DecidableEq, Repr

/-- A live `Range` whose endpoint containers are node references inside the
article root, modelled by their paths. -/
structure LiveRange where
  startPath : List Nat
  startOffset : Nat
  endPath : List Nat
  endOffset : Nat
deriving DecidableEq, Repr

/-- The `while (current !== root)` loop of `getNodePath`, walking up from the
node to the root.  A node reference is its path `p`; its parent is referenced
by `p.dropLast`, and `indexOf` over the parent's `childNodes` under JS
reference equality returns the node's own index, i.e. the last entry of `p`.
The walk is phrased on the reversed path so each loop iteration strips one
trailing index and `unshift`s it onto the accumulator. -/
def pathLoop : List Nat → List Nat → List Nat
  | [], path => path
  | i :: revRest, path => pathLoop revRest (i :: path)

/-- `getNodePath(node, root)`: the accumulated child-index path from the root
down to the node (the `!parent` bail-out is unreachable for a reference that
lies inside the root). -/
def getNodePath (p : List Nat) : List Nat := pathLoop p.reverse []

/-- `getNodeFromPath(path, root)`: repeated indexed child lookup; `none` as
soon as an index is out of bounds (`!current.childNodes[index]`). -/
def getNodeFromPath : List Nat → DomNode → Option DomNode
  | [], n => some n
  | i :: rest, n =>
    match (childNodes n)[i]? with
    | some c => getNodeFromPath rest c
    | none => none

/-- Lexicographic strict order on index lists, as a Bool. -/
def lexLt : List Nat → List Nat → Bool
  | [], [] => false
  | [], _ :: _ => true
  | _ :: _, [] => false
  | a :: as, b :: bs => if a < b then true else if b < a then false else lexLt as bs

/-- The comparison key of a DOM boundary point `(node, offset)` with the node
given by its path: tree order on boundary points under a common root is
lexicographic order on `path ++ [offset]`. -/
def bpKey (p : List Nat) (off : Nat) : List Nat := p ++ [off]

/-- Character position of a boundary point inside the root's text content:
the number of text characters that lie strictly before it in tree order. -/
def boundaryPos : DomNode → List Nat → Nat → Nat
  | .text s, [], off => min off s.length
  | .elem _ _ cs, [], off => (textCharsList (cs.take off)).length
  | .text _, _ :: _, _ => 0
  | .elem _ _ cs, i :: rest, off =>
    (textCharsList (cs.take i)).length +
      (match cs[i]? with
       | some c => boundaryPos c rest off
       | none => 0)

/-- `range.toString()`: the slice of the root's text content between the two
boundary points of the range. -/
def rangeText (root : DomNode) (r : LiveRange) : List Char :=
  ((textChars root).take (boundaryPos root r.endPath r.endOffset)).drop
    (boundaryPos root r.startPath r.startOffset)

/-- `serializeRange(range, root)`: rejects a range whose endpoint containers do
not lie inside the root (`root.contains` — for the path model of a node
reference that is exactly resolvability of the path), otherwise records both
node paths, both offsets and `range.toString()`. -/
def serializeRange (r : LiveRange) (root : DomNode) : Option SerializedRange :=
  if (getNodeFromPath r.startPath root).isSome && (getNodeFromPath r.endPath root).isSome then
    some ⟨getNodePath r.startPath, r.startOffset, getNodePath r.endPath, r.endOffset,
      rangeText root r⟩
  else none

/-- `deserializeRange(data, root)`: resolves both paths by indexed child walk,
`none` if either fails; then rebuilds the range.  `setStart`/`setEnd` throw
`IndexSizeError` for an offset beyond the node's length — caught by the
`try`/`catch` and turned into `null` — and `setEnd` with an end boundary lying
before the start collapses the range to the end point. -/
def deserializeRange (d : SerializedRange) (root : DomNode) : Option LiveRange :=
  match getNodeFromPath d.startPath root, getNodeFromPath d.endPath root with
  | some sn, some en =>
    if d.startOffset ≤ nodeLength sn then
      if d.endOffset ≤ nodeLength en then
        if lexLt (bpKey d.endPath d.endOffset) (bpKey d.startPath d.startOffset) then
          some ⟨d.endPath, d.endOffset, d.endPath, d.endOffset⟩
        else
          some ⟨d.startPath, d.startOffset, d.endPath, d.endOffset⟩
      else none
    else none
  | _, _ => none

/-!  ## Highlighter (`highlightRange`) -/

/-- `range.intersectsNode(node)` for the node referenced by path `p` under the
shared root: true when the node's parent is null, otherwise when the range's
start lies strictly before the boundary just after the node and the range's
end lies strictly after the boundary just before it. -/
def intersectsRange (r : LiveRange) (p : List Nat) : Bool :=
  match p.reverse with
  | [] => true
  | i :: revParent =>
    let pp := revParent.reverse
    lexLt (bpKey r.startPath r.startOffset) (bpKey pp (i + 1)) &&
      lexLt (bpKey pp i) (bpKey r.endPath r.endOffset)

mutual

/-- First pass of `highlightRange`: the `NodeIterator` restricted to text
nodes whose `acceptNode` filter is `range.intersectsNode`, walking the tree in
document order.  `p` is the path of the node being visited. -/
def collectNode (r : LiveRange) (p : List Nat) : DomNode → List (List Nat × List Char)
  | .text d => if intersectsRange r p then [(p, d)] else []
  | .elem _ _ cs => collectList r p 0 cs

/-- Walk a forest of siblings, the first sibling having index `i`. -/
def collectList (r : LiveRange) (p : List Nat) (i : Nat) : List DomNode → List (List Nat × List Char)
  | [] => []
  | c :: cs => collectNode r (p ++ [i]) c ++ collectList r p (i + 1) cs

end

/-- `start = (node === range.startContainer) ? range.startOffset : 0` — node
references compare by path. -/
def clipStart (r : LiveRange) (p : List Nat) : Nat :=
  if p = r.startPath then r.startOffset else 0

/-- `end = (node === range.endContainer) ? range.endOffset : node.length`. -/
def clipEnd (r : LiveRange) (p : List Nat) (d : List Char) : Nat :=
  if p = r.endPath then r.endOffset else d.length

/-- The `nodesToWrap` array: for each accepted text node, the in-range
character sub-span — clipped at `startOffset` when the node is the range's
start container, at `endOffset` when it is the end container, full span
otherwise — keeping only sub-spans with `start < end`. -/
def nodesToWrap (r : LiveRange) (root : DomNode) : List (List Nat × Nat × Nat) :=
  (collectNode r [] root).filterMap (fun pd =>
    if clipStart r pd.1 < clipEnd r pd.1 pd.2 then
      some (pd.1, clipStart r pd.1, clipEnd r pd.1 pd.2)
    else none)

/-- The attributes written onto a freshly created `mark` element. -/
def markAttrs (annId color : String) : List (String × String) :=
  [("data-annotation-id", annId), ("style-background-color", color),
   ("style-cursor", "pointer"), ("class", "annotation-highlight")]

/-- The mark element wrapping one sub-span of text. -/
def markElem (annId color : String) (piece : List Char) : DomNode :=
  .elem "mark" (markAttrs annId color) [.text piece]

/-- The mark pushed onto `highlights` for one collected sub-span, `none` when
the wrap fails structurally (the path no longer designates a text node, or an
offset exceeds its data — the `surroundContents` failure caught and skipped by
the `try`/`catch`). -/
def wrapMark (root : DomNode) (annId color : String) (w : List Nat × Nat × Nat) :
    Option DomNode :=
  match getNodeFromPath w.1 root with
  | some (.text d) =>
    if w.2.1 ≤ d.length && w.2.2 ≤ d.length then
      some (markElem annId color ((d.take w.2.2).drop w.2.1))
    else none
  | _ => none

/-- `surroundContents` on the sub-range `[s, e)` of a text node with data `d`:
the node is split into the text before `s`, the new mark wrapping the
extracted middle, and the text from `e` on (the boundary splits produced by
the DOM algorithm leave an empty text node when `s = 0` or `e = d.length`,
which the model keeps). -/
def wrapPieces (annId color : String) (s e : Nat) (d : List Char) : List DomNode :=
  [.text (d.take s), markElem annId color ((d.take e).drop s), .text (d.drop e)]

/-- Look up the collected sub-span for the node at path `p`, if any. -/
def findSpan (ws : List (List Nat × Nat × Nat)) (p : List Nat) : Option (Nat × Nat) :=
  match ws.find? (fun w => w.1 = p) with
  | some w => some w.2
  | none => none

mutual

/-- Second pass of `highlightRange`, on one node: each collected text node is
replaced in place by its wrapped expansion.  The collected entries hold live
node references (modelled by their paths in the pre-mutation tree); each wrap
splits only its own text node, so the simultaneous replacement is the pure
rendering of the sequential `forEach` over live references.  A structurally
impossible wrap (out-of-bounds sub-span) is skipped, leaving the node intact. -/
def wrapNode (ws : List (List Nat × Nat × Nat)) (annId color : String) (p : List Nat) :
    DomNode → List DomNode
  | .text d =>
    match findSpan ws p with
    | some se =>
      if se.1 ≤ d.length && se.2 ≤ d.length then wrapPieces annId color se.1 se.2 d
      else [.text d]
    | none => [.text d]
  | .elem tag attrs cs => [.elem tag attrs (wrapList ws annId color p 0 cs)]

/-- Second pass over a forest of siblings, the first sibling having index `i`. -/
def wrapList (ws : List (List Nat × Nat × Nat)) (annId color : String) (p : List Nat) (i : Nat) :
    List DomNode → List DomNode
  | [] => []
  | c :: cs => wrapNode ws annId color (p ++ [i]) c ++ wrapList ws annId color p (i + 1) cs

end

/-- The mutated article subtree after the second pass.  The article root is
the container element the article is rendered into; wrapping the root itself
would need its parent, which lies outside the modelled subtree, so a bare text
root is left unchanged (the root is always an element in the application). -/
def applyWraps (ws : List (List Nat × Nat × Nat)) (annId color : String) :
    DomNode → DomNode
  | .text d => .text d
  | .elem tag attrs cs => .elem tag attrs (wrapList ws annId color [] 0 cs)

/-- `highlightRange(range, id, color)`: collect intersecting text-node
sub-spans, then wrap each in its own mark; returns the mutated tree together
with the `highlights` array of marks actually created. -/
def highlightRange (root : DomNode) (r : LiveRange) (annId color : String) :
    DomNode × List DomNode :=
  let ws := nodesToWrap r root
  (applyWraps ws annId color root, ws.filterMap (wrapMark root annId color))

/-- Does this element (itself) carry `mark[data-annotation-id = annId]`? -/
def isMarkWith (annId : String) : DomNode → Bool
  | .text _ => false
  | .elem tag attrs _ => tag == "mark" && attrs.contains ("data-annotation-id", annId)

mutual

/-- Is there a mark for `annId` at or below this node? -/
def containsMark (annId : String) : DomNode → Bool
  | .text _ => false
  | .elem tag attrs cs =>
    (tag == "mark" && attrs.contains ("data-annotation-id", annId)) || containsMarkList annId cs

/-- Is there a mark for `annId` in this forest? -/
def containsMarkList (annId : String) : List DomNode → Bool
  | [] => false
  | c :: cs => containsMark annId c || containsMarkList annId cs

end

/-- `articleRef.querySelector('mark[data-annotation-id="…"]')` finds a
descendant of the root (the root itself is never a mark). -/
def hasMarkFor (root : DomNode) (annId : String) : Bool :=
  containsMarkList annId (childNodes root)

/-- One annotation's step of the highlight-application effect in
`DocumentRoute`: look up an existing mark for the annotation id and skip
re-wrapping when one exists; otherwise deserialize the stored anchor and, when
that succeeds, paint the highlight — a failed resolution leaves the article
untouched and the annotation is simply skipped. -/
def applyHighlight (root : DomNode) (annId : String) (d : SerializedRange) (color : String) :
    DomNode :=
  if hasMarkFor root annId then root
  else
    match deserializeRange d root with
    | some r => (highlightRange root r annId color).1
    | none => root

/-!  ## Unhighlighting (`deleteAnnotation` in `DocumentRoute`) -/

/-- One level of `Node.normalize()`: merge runs of adjacent text nodes and
drop empty text nodes. -/
def coalesce : List DomNode → List DomNode
  | [] => []
  | .text d :: rest =>
    if d.isEmpty then coalesce rest
    else
      match coalesce rest with
      | .text d2 :: rest2 => .text (d ++ d2) :: rest2
      | rest2 => .text d :: rest2
  | .elem tag attrs cs :: rest => .elem tag attrs cs :: coalesce rest

mutual

/-- `Node.normalize()`: normalizes the whole subtree. -/
def normalizeNode : DomNode → DomNode
  | .text d => .text d
  | .elem tag attrs cs => .elem tag attrs (coalesce (normalizeList cs))

/-- Normalize a forest of siblings (children are normalized before the level
itself is coalesced). -/
def normalizeList : List DomNode → List DomNode
  | [] => []
  | c :: cs => normalizeNode c :: normalizeList cs

end

mutual

/-- The optimistic unhighlight in `deleteAnnotation`: every
`mark[data-annotation-id = annId]` is replaced by its children (each child is
re-inserted before the mark, then the mark is removed), and each parent that
held such a mark is normalized afterwards. -/
def unwrapNode (annId : String) : DomNode → List DomNode
  | .text d => [.text d]
  | .elem tag attrs cs =>
    if tag == "mark" && attrs.contains ("data-annotation-id", annId) then
      unwrapList annId cs
    else
      if cs.any (isMarkWith annId) then
        [normalizeNode (.elem tag attrs (unwrapList annId cs))]
      else
        [.elem tag attrs (unwrapList annId cs)]

/-- Unwrap over a forest of siblings. -/
def unwrapList (annId : String) : List DomNode → List DomNode
  | [] => []
  | c :: cs => unwrapNode annId c ++ unwrapList annId cs

end

/-- Removing one annotation's highlight from the article subtree.  The article
root is a container element and never a mark itself, so the unwrap of the root
is a single node. -/
def unhighlight (annId : String) (root : DomNode) : DomNode :=
  match unwrapNode annId root with
  | [x] => x
  | _ => root

/-!  ## Side-note layout (`DocumentRoute`) -/

/-- A positioned entry as the layout pass sees it: raw top offset and, for the
collision pass, the measured rendered height of its card. -/
structure SideNoteCard where
  top : Int
  height : Nat
deriving DecidableEq, Repr

/-- The collision-avoidance `useLayoutEffect` walk: `lastBottom` starts at
negative infinity (modelled by `none`), each card gets
`visualTop = max(rawTop, lastBottom + 15)` and `lastBottom` becomes
`visualTop + height`.  Returns the visual tops in walk order. -/
def collidePass (lastBottom : Option Int) : List SideNoteCard → List Int
  | [] => []
  | c :: rest =>
    let visualTop : Int :=
      match lastBottom with
      | none => c.top
      | some lb => if c.top < lb + 15 then lb + 15 else c.top
    visualTop :: collidePass (some (visualTop + c.height)) rest

/-- The entry fields that the ordering-and-indexing pass inspects: the raw top,
the `isGeneral` flag set only on the general-note entry, and whether the
record carries a serialized range (truthy `p.range`). -/
structure PosEntry where
  top : Int
  isGeneral : Bool
  hasRange : Bool
deriving DecidableEq, Repr

/-- The sort comparator: the general note is forced first, all other entries
compare by raw top (`a.top - b.top`).  As a boolean `le` relation for a stable
sort this is `cmp(a,b) ≤ 0`. -/
def entryLe (a b : PosEntry) : Bool :=
  a.isGeneral || (!b.isGeneral && decide (a.top ≤ b.top))

/-- `newPositions.sort(...)`: a stable sort under the comparator (the
ECMAScript sort is stable, and with a single general entry and distinct tops
the comparator is consistent). -/
def sortEntries (l : List PosEntry) : List PosEntry := l.mergeSort entryLe

/-- Index assignment: `currentIndex` starts at 1, an entry receives and bumps
it exactly when it is a span highlight (`p.range && !p.isGeneral`); every
other entry — the general note — keeps index 0. -/
def assignIndices (cur : Nat) : List PosEntry → List (PosEntry × Nat)
  | [] => []
  | p :: rest =>
    if p.hasRange && !p.isGeneral then (p, cur) :: assignIndices (cur + 1) rest
    else (p, 0) :: assignIndices cur rest

/-- The ordering-and-indexing pipeline of the layout pass: span entries are
pushed first, the general entry is pushed last, the whole list is sorted and
then indexed starting from 1. -/
def computePositions (spans : List PosEntry) (general : PosEntry) : List (PosEntry × Nat) :=
  assignIndices 1 (sortEntries (spans ++ [general]))

/-!  ## Client-side record store (`DocumentRoute` fetcher effects) -/

/-- The slice of a fetched record that the store's filters inspect. -/
structure ClientRecord where
  recId : String
  documentId : String
  comment : String
deriving DecidableEq, Repr

/-- Consuming an annotation-list response: the arriving records are strictly
filtered to the currently viewed document before they are stored
(`data.annotations.filter(a => a.documentId === doc._id)`). -/
def consumeListResponse (currentDocId : String) (resp : List ClientRecord) :
    List ClientRecord :=
  resp.filter (fun a => a.documentId == currentDocId)

/-- The render-time guard: `relevantAnnotations` filters the stored list to
the current document once more before any highlight is painted. -/
def relevantRecords (currentDocId : String) (stored : List ClientRecord) :
    List ClientRecord :=
  stored.filter (fun a => a.documentId == currentDocId)

/-!  ## Persistence actions (`api.annotations` action) -/

inductive StatusField where
  | read
  | liked
deriving DecidableEq, Repr

/-- The persisted record shape manipulated by the general-note intents.
`range = none` is the general-note sentinel; `read`/`liked` are `Option`
because a Mongo document may simply lack the field. -/
structure DbRecord where
  documentId : String
  collectionName : String
  range : Option SerializedRange
  readFlag : Option Bool
  likedFlag : Option Bool
  comment : String
  tags : List String
  color : String
  userId : String
  username : String
  createdAt : Nat
  updatedAt : Nat
deriving DecidableEq

/-- The filter `{ documentId, collectionName, range: null }` shared by the
general-note intents. -/
def matchesGeneral (docId coll : String) (a : DbRecord) : Bool :=
  a.documentId == docId && a.collectionName == coll && a.range == none

/-- `updateOne` without upsert: the first matching document is rewritten, the
rest of the collection is untouched; no match, no change. -/
def updateFirst (p : DbRecord → Bool) (f : DbRecord → DbRecord) :
    List DbRecord → List DbRecord
  | [] => []
  | a :: as => if p a then f a :: as else a :: updateFirst p f as

/-- The `$set` part of the `toggleStatus` update: the toggled field, the
bookkeeping `updatedAt` and `userId`, nothing else. -/
def toggleSet (field : StatusField) (value : Bool) (userId : String) (now : Nat)
    (a : DbRecord) : DbRecord :=
  { a with
    readFlag := if field = .read then some value else a.readFlag
    likedFlag := if field = .liked then some value else a.likedFlag
    userId := userId
    updatedAt := now }

/-- The document inserted by the upsert branch of `toggleStatus`: the filter's
equality fields, the `$set` fields, and the `$setOnInsert` defaults
(`comment = ""`, `tags = []`, color, username, `createdAt`, `range = null`).
The untouched flag is absent. -/
def toggleInsert (docId coll : String) (field : StatusField) (value : Bool)
    (userId : String) (now : Nat) : DbRecord :=
  { documentId := docId
    collectionName := coll
    range := none
    readFlag := if field = .read then some value else none
    likedFlag := if field = .liked then some value else none
    comment := ""
    tags := []
    color := "#e5e7eb"
    userId := userId
    username := "User"
    createdAt := now
    updatedAt := now }

/-- The `toggleStatus` intent: `updateOne(filter, update, { upsert: true })` —
rewrite the first matching general note, or insert a fresh one when none
matches. -/
def toggleStatusAction (db : List DbRecord) (docId coll : String) (field : StatusField)
    (value : Bool) (userId : String) (now : Nat) : List DbRecord :=
  if db.any (matchesGeneral docId coll) then
    updateFirst (matchesGeneral docId coll) (toggleSet field value userId now) db
  else
    db ++ [toggleInsert docId coll field value userId now]

/-- The `removeTag` intent: `updateOne(filter, { $pull: …, $set: … })` with no
upsert option — `$pull` drops every occurrence of the tag, `$set` touches the
bookkeeping fields, and a missing general note matches nothing. -/
def removeTagAction (db : List DbRecord) (docId coll tag : String) (userId : String)
    (now : Nat) : List DbRecord :=
  updateFirst (matchesGeneral docId coll)
    (fun a => { a with tags := a.tags.filter (fun t => t ≠ tag), userId := userId, updatedAt := now })
    db

/-!  ## Auxiliary predicates and concrete sample inputs -/

/-- A live range is valid in a tree when both endpoint containers resolve and
both offsets are within their containers — exactly the state of any range
produced by the browser from a real selection, and of any range rebuilt by
`deserializeRange`. -/
def validRange (root : DomNode) (r : LiveRange) : Prop :=
  (∃ n, getNodeFromPath r.startPath root = some n ∧ r.startOffset ≤ nodeLength n) ∧
  (∃ n, getNodeFromPath r.endPath root = some n ∧ r.endOffset ≤ nodeLength n)

/-- A small rendered article: a paragraph followed by a trailing text node. -/
def sampleRoot : DomNode :=
  .elem "div" [] [.elem "p" [] [.text "hello world".data], .text " tail".data]

/-- A selection of `"ello wo"` inside the paragraph's text node. -/
def sampleRange : LiveRange := ⟨[0, 0], 1, [0, 0], 8⟩

/-- A stored anchor whose start path points at a child index that no longer
exists in `sampleRoot`. -/
def sampleShifted : SerializedRange := ⟨[5], 0, [0, 0], 3, "hel".data⟩

/-- Three measured side-note cards, the first two crowding each other. -/
def sampleCards : List SideNoteCard := [⟨0, 40⟩, ⟨10, 25⟩, ⟨200, 30⟩]

/-- A stale record for document `docX` arriving together with a record for the
currently viewed document `docY`. -/
def sampleRecords : List ClientRecord := [⟨"a1", "docX", "old"⟩, ⟨"a2", "docY", "new"⟩]

/-- Two span entries out of document order, and the general-note entry. -/
def sampleSpans : List PosEntry := [⟨120, false, true⟩, ⟨40, false, true⟩]

def sampleGeneral : PosEntry := ⟨-30, true, false⟩

/-- A persisted span annotation for `doc1` and the general note of `doc2`:
nothing in here is the general note of `doc1`. -/
def sampleDb : List DbRecord :=
  [⟨"doc1", "coll1", some ⟨[0], 0, [0], 3, "abc".data⟩, none, none, "note", ["todo"],
    "#fef9c3", "u1", "User", 1, 1⟩,
   ⟨"doc2", "coll1", none, some true, none, "", [], "#e5e7eb", "u1", "User", 2, 2⟩]

/-- An article with one already-painted mark for annotation `a7`. -/
def sampleMarked : DomNode :=
  .elem "div" []
    [.elem "p" [] [.text "he".data, markElem "a7" "#fef9c3" "llo wor".data, .text "ld".data]]

/-!  # Theorems -/

theorem pathLoop_eq (l acc : List Nat) : pathLoop l acc = l.reverse ++ acc := by
  induction l generalizing acc with
  | nil => simp [pathLoop]
  | cons i rest ih => simp [pathLoop, ih]

/-- The walk-up of `getNodePath` reproduces the child-index path of the node
reference it was handed. -/
theorem getNodePath_eq (p : List Nat) : getNodePath p = p := by
  simp [getNodePath, pathLoop_eq]

/-- C1.  Round-trip of the anchor codec: for every non-collapsed range whose
endpoints lie inside the root (both paths resolve, both offsets are within
their containers, and the end boundary is not before the start boundary), in
an unchanged tree `deserializeRange (serializeRange r root) root` succeeds and
the resolved range has the same text content as the original. -/
theorem anchor_codec_roundtrip (root : DomNode) (r : LiveRange)
    (hs : ∃ n, getNodeFromPath r.startPath root = some n ∧ r.startOffset ≤ nodeLength n)
    (he : ∃ n, getNodeFromPath r.endPath root = some n ∧ r.endOffset ≤ nodeLength n)
    (hord : lexLt (bpKey r.endPath r.endOffset) (bpKey r.startPath r.startOffset) = false) :
    ∃ sr r', serializeRange r root = some sr ∧ deserializeRange sr root = some r' ∧
      rangeText root r' = rangeText root r := by
  obtain ⟨sn, hsn, hso⟩ := hs
  obtain ⟨en, hen, heo⟩ := he
  refine ⟨⟨r.startPath, r.startOffset, r.endPath, r.endOffset, rangeText root r⟩, r, ?_, ?_, rfl⟩
  · simp [serializeRange, hsn, hen, getNodePath_eq]
  · simp [deserializeRange, hsn, hen, hso, heo, hord]

theorem anchor_codec_roundtrip_witness :
    (∃ n, getNodeFromPath sampleRange.startPath sampleRoot = some n ∧
        sampleRange.startOffset ≤ nodeLength n) ∧
    (∃ n, getNodeFromPath sampleRange.endPath sampleRoot = some n ∧
        sampleRange.endOffset ≤ nodeLength n) ∧
    lexLt (bpKey sampleRange.endPath sampleRange.endOffset)
        (bpKey sampleRange.startPath sampleRange.startOffset) = false ∧
    (∃ sr r', serializeRange sampleRange sampleRoot = some sr ∧
      deserializeRange sr sampleRoot = some r' ∧
      rangeText sampleRoot r' = rangeText sampleRoot sampleRange) :=
  ⟨⟨.text "hello world".data, rfl, by decide⟩, ⟨.text "hello world".data, rfl, by decide⟩,
    by decide,
    anchor_codec_roundtrip sampleRoot sampleRange
      ⟨.text "hello world".data, rfl, by decide⟩ ⟨.text "hello world".data, rfl, by decide⟩
      (by decide)⟩

/-- C2.  Soft failure of anchor resolution: as soon as the indexed child walk
fails on either stored path, `deserializeRange` returns `null` instead of
raising, and the caller's per-annotation step leaves the article untouched —
the annotation's highlight is simply skipped. -/
theorem deserialize_soft_failure (d : SerializedRange) (root : DomNode) (annId color : String)
    (h : getNodeFromPath d.startPath root = none ∨ getNodeFromPath d.endPath root = none) :
    deserializeRange d root = none ∧ applyHighlight root annId d color = root := by
  have hnone : deserializeRange d root = none := by
    unfold deserializeRange
    rcases h with h | h
    · rw [h]
    · rw [h]; cases getNodeFromPath d.startPath root <;> rfl
  refine ⟨hnone, ?_⟩
  by_cases hm : hasMarkFor root annId
  · simp [applyHighlight, hm]
  · simp [applyHighlight, hm, hnone]

theorem deserialize_soft_failure_witness :
    (getNodeFromPath sampleShifted.startPath sampleRoot = none ∨
      getNodeFromPath sampleShifted.endPath sampleRoot = none) ∧
    (deserializeRange sampleShifted sampleRoot = none ∧
      applyHighlight sampleRoot "a1" sampleShifted "#fef9c3" = sampleRoot) :=
  ⟨Or.inl rfl, deserialize_soft_failure sampleShifted sampleRoot "a1" "#fef9c3" (Or.inl rfl)⟩

theorem collidePass_length (lb : Option Int) (cards : List SideNoteCard) :
    (collidePass lb cards).length = cards.length := by
  induction cards generalizing lb with
  | nil => rfl
  | cons c rest ih => simp [collidePass, ih]

theorem collidePass_head_ge (b : Int) (c : SideNoteCard) (rest : List SideNoteCard) :
    b + 15 ≤ (collidePass (some b) (c :: rest)).getD 0 0 := by
  simp only [collidePass]
  split <;> (simp; try omega)

theorem collidePass_ge_top (lb : Option Int) (cards : List SideNoteCard) :
    ∀ i, i < cards.length →
      (cards.getD i ⟨0, 0⟩).top ≤ (collidePass lb cards).getD i 0 := by
  induction cards generalizing lb with
  | nil => intro i h; simp at h
  | cons c rest ih =>
    intro i h
    match i with
    | 0 =>
      cases lb with
      | none => simp [collidePass]
      | some b => simp only [collidePass]; split <;> (simp; try omega)
    | j + 1 =>
      have := ih (some ((match lb with
        | none => c.top
        | some lb => if c.top < lb + 15 then lb + 15 else c.top) + c.height)) j
        (by simpa using h)
      simpa [collidePass] using this

theorem collidePass_adjacent (lb : Option Int) (cards : List SideNoteCard) :
    ∀ i, i + 1 < cards.length →
      (collidePass lb cards).getD i 0 + (cards.getD i ⟨0, 0⟩).height + 15 ≤
        (collidePass lb cards).getD (i + 1) 0 := by
  induction cards generalizing lb with
  | nil => intro i h; simp at h
  | cons c rest ih =>
    intro i h
    match i with
    | 0 =>
      match rest, h with
      | c' :: rest', _ =>
        have := collidePass_head_ge
          ((match lb with
            | none => c.top
            | some lb => if c.top < lb + 15 then lb + 15 else c.top) + c.height) c' rest'
        simpa [collidePass] using by omega
    | j + 1 =>
      have := ih (some ((match lb with
        | none => c.top
        | some lb => if c.top < lb + 15 then lb + 15 else c.top) + c.height)) j
        (by simpa using h)
      simpa [collidePass] using this

/-- C3.  The collision-avoidance pass, started with `lastBottom = -∞`, yields
one visual top per entry; every entry's visual top is at least its raw top
(cards are only ever pushed down), and each later adjacent card clears the
previous card's bottom by the 15-pixel gap. -/
theorem collide_pass_spec (cards : List SideNoteCard) :
    (collidePass none cards).length = cards.length ∧
    (∀ i, i < cards.length →
      (cards.getD i ⟨0, 0⟩).top ≤ (collidePass none cards).getD i 0) ∧
    (∀ i, i + 1 < cards.length →
      (collidePass none cards).getD i 0 + (cards.getD i ⟨0, 0⟩).height + 15 ≤
        (collidePass none cards).getD (i + 1) 0) :=
  ⟨collidePass_length none cards, collidePass_ge_top none cards, collidePass_adjacent none cards⟩

theorem collide_pass_spec_witness :
    (0 < sampleCards.length) ∧ (0 + 1 < sampleCards.length) ∧
    ((sampleCards.getD 0 ⟨0, 0⟩).top ≤ (collidePass none sampleCards).getD 0 0) ∧
    ((collidePass none sampleCards).getD 0 0 + (sampleCards.getD 0 ⟨0, 0⟩).height + 15 ≤
      (collidePass none sampleCards).getD 1 0) :=
  ⟨by decide, by decide, (collide_pass_spec sampleCards).2.1 0 (by decide),
    (collide_pass_spec sampleCards).2.2 0 (by decide)⟩

/-- C5.  Document-identity filtering: consuming a list response stores only
records whose `documentId` equals the currently viewed document's id; a record
of any other document — e.g. one delivered by a stale in-flight fetch that
resolves after navigation — is discarded, and the render-time filter sees only
current-document records. -/
theorem store_document_identity (current : String) (resp : List ClientRecord) :
    (∀ a ∈ consumeListResponse current resp, a.documentId = current) ∧
    (∀ a ∈ resp, a.documentId ≠ current → a ∉ consumeListResponse current resp) ∧
    (∀ a ∈ relevantRecords current (consumeListResponse current resp),
      a.documentId = current) := by
  refine ⟨?_, ?_, ?_⟩
  · intro a ha
    simpa using (List.mem_filter.mp ha).2
  · intro a _ hne hmem
    exact hne (by simpa using (List.mem_filter.mp hmem).2)
  · intro a ha
    simpa using (List.mem_filter.mp ha).2

theorem store_document_identity_witness :
    ((⟨"a1", "docX", "old"⟩ : ClientRecord) ∈ sampleRecords) ∧
    ("docX" ≠ "docY") ∧
    ((⟨"a1", "docX", "old"⟩ : ClientRecord) ∉ consumeListResponse "docY" sampleRecords) :=
  ⟨by decide, by decide,
    (store_document_identity "docY" sampleRecords).2.1 ⟨"a1", "docX", "old"⟩ (by decide)
      (by decide)⟩

theorem updateFirst_no_match (p : DbRecord → Bool) (f : DbRecord → DbRecord)
    (l : List DbRecord) (h : ∀ a ∈ l, p a = false) : updateFirst p f l = l := by
  induction l with
  | nil => rfl
  | cons a as ih =>
    simp only [updateFirst, h a (by simp)]
    simp only [Bool.false_eq_true, if_false, List.cons.injEq, true_and]
    exact ih (fun b hb => h b (by simp [hb]))

theorem updateFirst_skip (p : DbRecord → Bool) (f : DbRecord → DbRecord)
    (pre rest : List DbRecord) (h : ∀ a ∈ pre, p a = false) :
    updateFirst p f (pre ++ rest) = pre ++ updateFirst p f rest := by
  induction pre with
  | nil => rfl
  | cons a as ih =>
    simp only [List.cons_append, updateFirst, h a (by simp)]
    simp only [Bool.false_eq_true, if_false, List.cons.injEq, true_and]
    exact ih (fun b hb => h b (by simp [hb]))

theorem updateFirst_hit (p : DbRecord → Bool) (f : DbRecord → DbRecord)
    (g : DbRecord) (post : List DbRecord) (h : p g = true) :
    updateFirst p f (g :: post) = f g :: post := by
  simp [updateFirst, h]

/-- C9.  Toggling a status flag: when no general-note record exists for the
document, exactly one record is created, with `range = null`, the toggled
field set to the requested value, an empty comment and no tags; when the
general note already exists, only the toggled field and the bookkeeping
fields change and the stored comment and tags survive. -/
theorem toggle_status_spec (db : List DbRecord) (docId coll : String) (field : StatusField)
    (value : Bool) (userId : String) (now : Nat) :
    ((∀ a ∈ db, matchesGeneral docId coll a = false) →
      toggleStatusAction db docId coll field value userId now
          = db ++ [toggleInsert docId coll field value userId now] ∧
      (toggleStatusAction db docId coll field value userId now).countP
          (matchesGeneral docId coll) = 1 ∧
      (toggleInsert docId coll field value userId now).range = none ∧
      (toggleInsert docId coll field value userId now).comment = "" ∧
      (toggleInsert docId coll field value userId now).tags = [] ∧
      (field = .read → (toggleInsert docId coll field value userId now).readFlag = some value) ∧
      (field = .liked →
        (toggleInsert docId coll field value userId now).likedFlag = some value)) ∧
    (∀ pre g post, db = pre ++ g :: post → matchesGeneral docId coll g = true →
      (∀ a ∈ pre, matchesGeneral docId coll a = false) →
      toggleStatusAction db docId coll field value userId now
          = pre ++ toggleSet field value userId now g :: post ∧
      (toggleSet field value userId now g).comment = g.comment ∧
      (toggleSet field value userId now g).tags = g.tags ∧
      (toggleSet field value userId now g).range = g.range ∧
      (field = .read → (toggleSet field value userId now g).readFlag = some value ∧
        (toggleSet field value userId now g).likedFlag = g.likedFlag) ∧
      (field = .liked → (toggleSet field value userId now g).likedFlag = some value ∧
        (toggleSet field value userId now g).readFlag = g.readFlag)) := by
  constructor
  · intro h
    have hany : db.any (matchesGeneral docId coll) = false := by
      simp only [List.any_eq_false]
      intro a ha
      simp [h a ha]
    have hins : matchesGeneral docId coll (toggleInsert docId coll field value userId now)
        = true := by
      simp [matchesGeneral, toggleInsert]
    refine ⟨by simp [toggleStatusAction, hany], ?_, rfl, rfl, rfl, ?_, ?_⟩
    · rw [toggleStatusAction, hany]
      simp only [Bool.false_eq_true, if_false, List.countP_append]
      rw [List.countP_eq_zero.mpr (by intro a ha; simp [h a ha])]
      simp [List.countP, List.countP.go, hins]
    · intro hf; simp [toggleInsert, hf]
    · intro hf; cases field with
      | read => cases hf
      | liked => simp [toggleInsert]
  · intro pre g post hdb hg hpre
    have hany : db.any (matchesGeneral docId coll) = true := by
      subst hdb
      exact List.any_eq_true.mpr ⟨g, by simp, hg⟩
    subst hdb
    refine ⟨?_, rfl, rfl, rfl, ?_, ?_⟩
    · rw [toggleStatusAction, hany]
      simp only [if_true]
      rw [updateFirst_skip _ _ _ _ hpre, updateFirst_hit _ _ _ _ hg]
    · intro hf; subst hf; constructor <;> simp [toggleSet]
    · intro hf; subst hf; constructor <;> simp [toggleSet]

theorem toggle_status_spec_witness :
    (∀ a ∈ sampleDb, matchesGeneral "doc1" "coll1" a = false) ∧
    (toggleStatusAction sampleDb "doc1" "coll1" .liked true "u2" 9
        = sampleDb ++ [toggleInsert "doc1" "coll1" .liked true "u2" 9] ∧
      (toggleStatusAction sampleDb "doc1" "coll1" .liked true "u2" 9).countP
          (matchesGeneral "doc1" "coll1") = 1 ∧
      (toggleInsert "doc1" "coll1" StatusField.liked true "u2" 9).range = none ∧
      (toggleInsert "doc1" "coll1" StatusField.liked true "u2" 9).comment = "" ∧
      (toggleInsert "doc1" "coll1" StatusField.liked true "u2" 9).tags = [] ∧
      (StatusField.liked = .read →
        (toggleInsert "doc1" "coll1" StatusField.liked true "u2" 9).readFlag = some true) ∧
      (StatusField.liked = .liked →
        (toggleInsert "doc1" "coll1" StatusField.liked true "u2" 9).likedFlag = some true)) :=
  ⟨by decide,
    (toggle_status_spec sampleDb "doc1" "coll1" .liked true "u2" 9).1 (by decide)⟩

/-- C10.  `removeTag` has no upsert: on a document with no general-note record
the update matches nothing, so the collection is returned completely
unchanged — in particular no general-note record is created, unlike the
upserting `addTag` and `toggleStatus` intents. -/
theorem remove_tag_no_upsert (db : List DbRecord) (docId coll tag userId : String) (now : Nat)
    (h : ∀ a ∈ db, matchesGeneral docId coll a = false) :
    removeTagAction db docId coll tag userId now = db :=
  updateFirst_no_match _ _ db h

theorem remove_tag_no_upsert_witness :
    (∀ a ∈ sampleDb, matchesGeneral "doc1" "coll1" a = false) ∧
    removeTagAction sampleDb "doc1" "coll1" "todo" "u2" 9 = sampleDb :=
  ⟨by decide, remove_tag_no_upsert sampleDb "doc1" "coll1" "todo" "u2" 9 (by decide)⟩

theorem entryLe_trans : ∀ a b c : PosEntry,
    entryLe a b = true → entryLe b c = true → entryLe a c = true := by
  intro a b c hab hbc
  cases ha : a.isGeneral <;> cases hb : b.isGeneral <;> cases hc : c.isGeneral <;>
    (simp_all [entryLe]; try omega)

theorem entryLe_total : ∀ a b : PosEntry, (entryLe a b || entryLe b a) = true := by
  intro a b
  cases ha : a.isGeneral <;> cases hb : b.isGeneral <;> (simp_all [entryLe]; try omega)

theorem assignIndices_map_fst (k : Nat) (l : List PosEntry) :
    (assignIndices k l).map Prod.fst = l := by
  induction l generalizing k with
  | nil => rfl
  | cons p rest ih =>
    by_cases h : (p.hasRange && !p.isGeneral) = true <;> simp [assignIndices, h, ih]

theorem assignIndices_idx (l : List PosEntry)
    (hl : ∀ p ∈ l, p.hasRange = true ∧ p.isGeneral = false) :
    ∀ (k i : Nat) (d : PosEntry × Nat), i < l.length →
      ((assignIndices k l).getD i d).2 = k + i := by
  induction l with
  | nil => intro k i d h; simp at h
  | cons p rest ih =>
    intro k i d h
    have hp := hl p (by simp)
    have hc : (p.hasRange && !p.isGeneral) = true := by simp [hp.1, hp.2]
    match i with
    | 0 => simp [assignIndices, hc]
    | j + 1 =>
      have := ih (fun q hq => hl q (by simp [hq])) (k + 1) j d (by simpa using h)
      simp only [assignIndices, hc, if_true, List.getD_cons_succ]
      omega

/-- C4.  Ordering and indexing: with pairwise-distinct span tops the layout
pass puts the general note first with index 0, and lists the span entries
after it sorted by raw top ascending with indices 1, 2, … in that order — so
span indices are strictly increasing with raw top. -/
theorem layout_order_spec (spans : List PosEntry) (general : PosEntry)
    (hgen : general.isGeneral = true)
    (hspan : ∀ s ∈ spans, s.isGeneral = false ∧ s.hasRange = true)
    (hdist : spans.Pairwise (fun a b => a.top ≠ b.top)) :
    ∃ tail : List (PosEntry × Nat),
      computePositions spans general = (general, 0) :: tail ∧
      (tail.map Prod.fst).Perm spans ∧
      tail.Pairwise (fun a b => a.1.top < b.1.top) ∧
      (∀ i, i < tail.length → (tail.getD i (general, 0)).2 = i + 1) := by
  have hperm : (sortEntries (spans ++ [general])).Perm (spans ++ [general]) :=
    List.mergeSort_perm (spans ++ [general]) entryLe
  have hsorted : (sortEntries (spans ++ [general])).Pairwise (fun a b => entryLe a b = true) :=
    List.sorted_mergeSort entryLe_trans entryLe_total (spans ++ [general])
  cases hSe : sortEntries (spans ++ [general]) with
  | nil =>
    rw [hSe] at hperm
    have := hperm.length_eq
    simp at this
  | cons x S' =>
    rw [hSe] at hperm hsorted
    have hxmem : x ∈ spans ++ [general] := hperm.subset (by simp)
    have hx : x = general := by
      by_cases hxg : x.isGeneral = true
      · rcases List.mem_append.mp hxmem with hxs | hxg1
        · exact absurd hxg (by simp [(hspan x hxs).1])
        · simpa using hxg1
      · exfalso
        have hgmem : general ∈ x :: S' := hperm.mem_iff.mpr (by simp)
        have hgS' : general ∈ S' := by
          rcases List.mem_cons.mp hgmem with h | h
          · exact absurd (h ▸ hgen) hxg
          · exact h
        have hle := (List.pairwise_cons.mp hsorted).1 general hgS'
        rw [Bool.not_eq_true] at hxg
        simp [entryLe, hgen, hxg] at hle
    subst hx
    have hS'perm : S'.Perm spans := by
      have h1 : (x :: S').Perm (x :: spans) :=
        hperm.trans (List.perm_append_singleton x spans)
      exact h1.cons_inv
    have hmem' : ∀ s ∈ S', s.isGeneral = false ∧ s.hasRange = true :=
      fun s hs => hspan s (hS'perm.subset hs)
    have hpairLe : S'.Pairwise (fun a b => entryLe a b = true) :=
      (List.pairwise_cons.mp hsorted).2
    have hpairNe : S'.Pairwise (fun a b => a.top ≠ b.top) :=
      (hS'perm.pairwise_iff (fun h => Ne.symm h)).mpr hdist
    have hpairLt : S'.Pairwise (fun a b => a.top < b.top) := by
      refine List.Pairwise.imp_of_mem ?_ (hpairLe.and hpairNe)
      intro a b ha hb hab
      have ha' := hmem' a ha
      have hb' := hmem' b hb
      have h1 : a.top ≤ b.top := by
        have h2 := hab.1
        simp [entryLe, ha'.1, hb'.1] at h2
        exact h2
      have h3 := hab.2
      omega
    refine ⟨assignIndices 1 S', ?_, ?_, ?_, ?_⟩
    · rw [computePositions, hSe]
      simp [assignIndices, hgen]
    · rw [assignIndices_map_fst]; exact hS'perm
    · have h4 := hpairLt
      rw [← assignIndices_map_fst 1 S'] at h4
      exact List.Pairwise.of_map Prod.fst (fun a b h => h) h4
    · intro i hi
      have hlen : (assignIndices 1 S').length = S'.length := by
        have h5 := congrArg List.length (assignIndices_map_fst 1 S')
        simpa using h5
      have h6 := assignIndices_idx S' (fun p hp => ⟨(hmem' p hp).2, (hmem' p hp).1⟩) 1 i
        (x, 0) (by omega)
      omega

theorem layout_order_spec_witness :
    (sampleGeneral.isGeneral = true) ∧
    (∀ s ∈ sampleSpans, s.isGeneral = false ∧ s.hasRange = true) ∧
    sampleSpans.Pairwise (fun a b => a.top ≠ b.top) ∧
    (∃ tail : List (PosEntry × Nat),
      computePositions sampleSpans sampleGeneral = (sampleGeneral, 0) :: tail ∧
      (tail.map Prod.fst).Perm sampleSpans ∧
      tail.Pairwise (fun a b => a.1.top < b.1.top) ∧
      (∀ i, i < tail.length → (tail.getD i (sampleGeneral, 0)).2 = i + 1)) :=
  ⟨rfl, by decide, by decide,
    layout_order_spec sampleSpans sampleGeneral rfl (by decide) (by decide)⟩

mutual

theorem wrapNode_nil (annId color : String) (p : List Nat) :
    ∀ t : DomNode, wrapNode [] annId color p t = [t]
  | .text d => by simp [wrapNode, findSpan, List.find?]
  | .elem tag attrs cs => by
    rw [wrapNode, wrapList_nil annId color p 0 cs]

theorem wrapList_nil (annId color : String) (p : List Nat) :
    ∀ (i : Nat) (cs : List DomNode), wrapList [] annId color p i cs = cs
  | _, [] => rfl
  | i, c :: cs => by
    rw [wrapList, wrapNode_nil annId color (p ++ [i]) c, wrapList_nil annId color p (i + 1) cs]
    rfl

end

theorem applyWraps_nil (annId color : String) (t : DomNode) :
    applyWraps [] annId color t = t := by
  cases t with
  | text d => rfl
  | elem tag attrs cs => rw [applyWraps, wrapList_nil]

theorem containsMarkList_append (annId : String) (l1 l2 : List DomNode) :
    containsMarkList annId (l1 ++ l2)
      = (containsMarkList annId l1 || containsMarkList annId l2) := by
  induction l1 with
  | nil => simp [containsMarkList]
  | cons c cs ih => simp [containsMarkList, ih, Bool.or_assoc]

theorem markElem_self (annId color : String) (piece : List Char) :
    containsMark annId (markElem annId color piece) = true := by
  simp [markElem, markAttrs, containsMark]

theorem wrapList_contains (ws : List (List Nat × Nat × Nat)) (annId color : String)
    (pfx : List Nat) :
    ∀ (cs : List DomNode) (i j : Nat) (c : DomNode),
      cs[j]? = some c →
      containsMarkList annId (wrapNode ws annId color (pfx ++ [i + j]) c) = true →
      containsMarkList annId (wrapList ws annId color pfx i cs) = true
  | [], _, j, c, hj, _ => by simp at hj
  | c0 :: cs, i, 0, c, hj, hc => by
    simp only [List.getElem?_cons_zero, Option.some.injEq] at hj
    subst hj
    rw [wrapList, containsMarkList_append]
    simp only [Nat.add_zero] at hc
    simp [hc]
  | c0 :: cs, i, j + 1, c, hj, hc => by
    simp only [List.getElem?_cons_succ] at hj
    have hrec := wrapList_contains ws annId color pfx cs (i + 1) j c hj (by
      have harith : i + 1 + j = i + (j + 1) := by omega
      rwa [harith])
    rw [wrapList, containsMarkList_append]
    simp [hrec]

theorem wrapNode_contains (ws : List (List Nat × Nat × Nat)) (annId color : String) :
    ∀ (q : List Nat) (t : DomNode) (pfx : List Nat) (s e : Nat) (d : List Char),
      findSpan ws (pfx ++ q) = some (s, e) →
      getNodeFromPath q t = some (.text d) →
      s ≤ d.length → e ≤ d.length →
      containsMarkList annId (wrapNode ws annId color pfx t) = true
  | [], t, pfx, s, e, d, hf, hn, hs, he => by
    have ht : t = .text d := by simpa [getNodeFromPath] using hn
    subst ht
    rw [List.append_nil] at hf
    simp [wrapNode, hf, hs, he, wrapPieces, containsMarkList, markElem_self]
  | j :: q'', t, pfx, s, e, d, hf, hn, hs, he => by
    match t with
    | .text d0 => simp [getNodeFromPath, childNodes] at hn
    | .elem tag attrs cs =>
      simp only [getNodeFromPath, childNodes] at hn
      cases hj : cs[j]? with
      | none => rw [hj] at hn; cases hn
      | some c =>
        rw [hj] at hn
        have hrec := wrapNode_contains ws annId color q'' c (pfx ++ [j]) s e d
          (by rwa [List.append_assoc, List.singleton_append]) hn hs he
        have hlift := wrapList_contains ws annId color pfx cs 0 j c hj
          (by simpa using hrec)
        simp [wrapNode, containsMarkList, containsMark, hlift]

mutual

theorem collectNode_sound (r : LiveRange) :
    ∀ (t : DomNode) (p q : List Nat) (d : List Char),
      (q, d) ∈ collectNode r p t →
      ∃ q', q = p ++ q' ∧ getNodeFromPath q' t = some (.text d) ∧
        intersectsRange r q = true
  | .text s, p, q, d, h => by
    cases hint : intersectsRange r p with
    | false => simp [collectNode, hint] at h
    | true =>
      simp only [collectNode, hint, if_true, List.mem_singleton, Prod.mk.injEq] at h
      obtain ⟨hq, hd⟩ := h
      subst hq; subst hd
      exact ⟨[], by simp, by simp [getNodeFromPath], hint⟩
  | .elem tag attrs cs, p, q, d, h => by
    rw [collectNode] at h
    obtain ⟨j, c, q'', hj, hq, hget, hint⟩ := collectList_sound r cs p 0 q d h
    refine ⟨j :: q'', by simpa using hq, ?_, hint⟩
    simp [getNodeFromPath, childNodes, hj, hget]

theorem collectList_sound (r : LiveRange) :
    ∀ (cs : List DomNode) (p : List Nat) (i : Nat) (q : List Nat) (d : List Char),
      (q, d) ∈ collectList r p i cs →
      ∃ j c q'', cs[j]? = some c ∧ q = (p ++ [i + j]) ++ q'' ∧
        getNodeFromPath q'' c = some (.text d) ∧ intersectsRange r q = true
  | [], p, i, q, d, h => by simp [collectList] at h
  | c0 :: cs, p, i, q, d, h => by
    rw [collectList, List.mem_append] at h
    rcases h with h | h
    · obtain ⟨q', hq, hget, hint⟩ := collectNode_sound r c0 (p ++ [i]) q d h
      exact ⟨0, c0, q', by simp, by simpa using hq, hget, hint⟩
    · obtain ⟨j, c, q'', hj, hq, hget, hint⟩ := collectList_sound r cs p (i + 1) q d h
      refine ⟨j + 1, c, q'', by simpa using hj, ?_, hget, hint⟩
      have harith : i + 1 + j = i + (j + 1) := by omega
      rwa [harith] at hq

end

theorem collectList_complete (r : LiveRange) (pfx : List Nat) :
    ∀ (cs : List DomNode) (i j : Nat) (c : DomNode) (x : List Nat × List Char),
      cs[j]? = some c → x ∈ collectNode r (pfx ++ [i + j]) c →
      x ∈ collectList r pfx i cs
  | [], _, j, c, x, hj, _ => by simp at hj
  | c0 :: cs, i, 0, c, x, hj, hx => by
    simp only [List.getElem?_cons_zero, Option.some.injEq] at hj
    subst hj
    rw [collectList, List.mem_append]
    exact Or.inl (by simpa using hx)
  | c0 :: cs, i, j + 1, c, x, hj, hx => by
    simp only [List.getElem?_cons_succ] at hj
    rw [collectList, List.mem_append]
    refine Or.inr (collectList_complete r pfx cs (i + 1) j c x hj ?_)
    have harith : i + 1 + j = i + (j + 1) := by omega
    rwa [harith]

theorem collectNode_complete (r : LiveRange) :
    ∀ (q : List Nat) (t : DomNode) (p : List Nat) (d : List Char),
      getNodeFromPath q t = some (.text d) →
      intersectsRange r (p ++ q) = true →
      (p ++ q, d) ∈ collectNode r p t
  | [], t, p, d, hget, hint => by
    have ht : t = .text d := by simpa [getNodeFromPath] using hget
    subst ht
    rw [List.append_nil] at hint
    simp [collectNode, hint]
  | j :: q'', t, p, d, hget, hint => by
    match t with
    | .text d0 => simp [getNodeFromPath, childNodes] at hget
    | .elem tag attrs cs =>
      simp only [getNodeFromPath, childNodes] at hget
      cases hj : cs[j]? with
      | none => rw [hj] at hget; cases hget
      | some c =>
        rw [hj] at hget
        have hmem := collectNode_complete r q'' c (p ++ [j]) d hget (by
          rwa [List.append_assoc, List.singleton_append])
        rw [collectNode]
        have := collectList_complete r p cs 0 j c ((p ++ [j]) ++ q'', d) hj
          (by simpa using hmem)
        simpa [List.append_assoc] using this

theorem nodesToWrap_mem (r : LiveRange) (root : DomNode) (p : List Nat) (s e : Nat) :
    (p, s, e) ∈ nodesToWrap r root ↔
      ∃ d, getNodeFromPath p root = some (.text d) ∧ intersectsRange r p = true ∧
        s = clipStart r p ∧ e = clipEnd r p d ∧ s < e := by
  constructor
  · intro h
    rw [nodesToWrap] at h
    obtain ⟨⟨q, d⟩, hmem, hf⟩ := List.mem_filterMap.mp h
    by_cases hlt : clipStart r q < clipEnd r q d
    · simp only [hlt, if_true, Option.some.injEq, Prod.mk.injEq] at hf
      obtain ⟨hq, hs, he⟩ := hf
      rw [hq] at hmem hs he
      rw [hq, hs, he] at hlt
      obtain ⟨q', hq', hget, hint⟩ := collectNode_sound r root [] p d hmem
      rw [List.nil_append] at hq'
      subst hq'
      exact ⟨d, hget, hint, hs.symm, he.symm, hlt⟩
    · simp [hlt] at hf
  · rintro ⟨d, hget, hint, hs, he, hlt⟩
    rw [nodesToWrap]
    refine List.mem_filterMap.mpr ⟨(p, d), ?_, ?_⟩
    · have := collectNode_complete r p root [] d hget (by simpa using hint)
      simpa using this
    · subst hs; subst he
      simp [hlt]

theorem deserialize_validRange (d : SerializedRange) (root : DomNode) (rng : LiveRange)
    (h : deserializeRange d root = some rng) : validRange root rng := by
  unfold deserializeRange at h
  split at h
  next sn en hsn hen =>
    split at h
    next h1 =>
      split at h
      next h2 =>
        split at h
        next h3 =>
          have hrng := Option.some.inj h
          subst hrng
          exact ⟨⟨en, hen, h2⟩, ⟨en, hen, h2⟩⟩
        next h3 =>
          have hrng := Option.some.inj h
          subst hrng
          exact ⟨⟨sn, hsn, h1⟩, ⟨en, hen, h2⟩⟩
      next h2 => cases h
    next h1 => cases h
  next => cases h

theorem nodesToWrap_bounds (root : DomNode) (r : LiveRange) (hv : validRange root r) :
    ∀ w ∈ nodesToWrap r root, ∃ d, getNodeFromPath w.1 root = some (.text d) ∧
      w.2.1 ≤ d.length ∧ w.2.2 ≤ d.length := by
  rintro ⟨p, s, e⟩ hw
  obtain ⟨d, hget, hint, hs, he, hlt⟩ := (nodesToWrap_mem r root p s e).mp hw
  refine ⟨d, hget, ?_, ?_⟩
  · rw [hs, clipStart]
    split
    · next hps =>
      obtain ⟨⟨n, hn, hno⟩, _⟩ := hv
      rw [hps] at hget
      have hnd : n = .text d := Option.some.inj (hn.symm.trans hget)
      subst hnd
      simpa [nodeLength] using hno
    · exact Nat.zero_le _
  · rw [he, clipEnd]
    split
    · next hpe =>
      obtain ⟨_, ⟨n, hn, hno⟩⟩ := hv
      rw [hpe] at hget
      have hnd : n = .text d := Option.some.inj (hn.symm.trans hget)
      subst hnd
      simpa [nodeLength] using hno
    · exact Nat.le_refl _

theorem filterMap_length_all_some {α β : Type} (f : α → Option β) (l : List α)
    (h : ∀ x ∈ l, (f x).isSome) : (l.filterMap f).length = l.length := by
  induction l with
  | nil => rfl
  | cons a as ih =>
    obtain ⟨b, hb⟩ := Option.isSome_iff_exists.mp (h a (by simp))
    rw [List.filterMap_cons, hb]
    simp [ih (fun x hx => h x (by simp [hx]))]

/-- C7.  The highlighter algorithm: pass one collects exactly the text nodes
intersecting the range, each with its clipped in-range sub-span, skipping
sub-spans that are not strictly nonempty; pass two wraps each collected
sub-span in its own mark element tagged with the annotation id and color; a
structurally failing wrap is skipped while the remaining sub-spans are still
wrapped; and the function returns exactly the marks actually created — for a
valid range, one per collected sub-span. -/
theorem highlight_range_spec (root : DomNode) (rng : LiveRange) (annId color : String)
    (hv : validRange root rng) :
    (∀ p s e, (p, s, e) ∈ nodesToWrap rng root ↔
      ∃ d, getNodeFromPath p root = some (.text d) ∧ intersectsRange rng p = true ∧
        s = clipStart rng p ∧ e = clipEnd rng p d ∧ s < e) ∧
    (∀ w ∈ nodesToWrap rng root, ∃ d, getNodeFromPath w.1 root = some (.text d) ∧
      wrapMark root annId color w
        = some (markElem annId color ((d.take w.2.2).drop w.2.1))) ∧
    (highlightRange root rng annId color).2.length = (nodesToWrap rng root).length ∧
    (∀ m ∈ (highlightRange root rng annId color).2,
      ∃ piece, m = markElem annId color piece) ∧
    (∀ ws1 w ws2, wrapMark root annId color w = none →
      (ws1 ++ w :: ws2).filterMap (wrapMark root annId color)
        = (ws1 ++ ws2).filterMap (wrapMark root annId color)) := by
  have hsucc : ∀ w ∈ nodesToWrap rng root, ∃ d, getNodeFromPath w.1 root = some (.text d) ∧
      wrapMark root annId color w
        = some (markElem annId color ((d.take w.2.2).drop w.2.1)) := by
    intro w hw
    obtain ⟨d, hget, hs, he⟩ := nodesToWrap_bounds root rng hv w hw
    exact ⟨d, hget, by simp [wrapMark, hget, hs, he]⟩
  refine ⟨fun p s e => nodesToWrap_mem rng root p s e, hsucc, ?_, ?_, ?_⟩
  · rw [highlightRange]
    refine filterMap_length_all_some _ _ (fun w hw => ?_)
    obtain ⟨d, _, hm⟩ := hsucc w hw
    simp [hm]
  · intro m hm
    rw [highlightRange] at hm
    obtain ⟨w, _, hw⟩ := List.mem_filterMap.mp hm
    rw [wrapMark] at hw
    split at hw
    next d0 heq =>
      split at hw
      · exact ⟨_, (Option.some.inj hw).symm⟩
      · cases hw
    next => cases hw
  · intro ws1 w ws2 hnone
    simp [List.filterMap_append, List.filterMap_cons, hnone]

theorem highlight_range_spec_witness :
    validRange sampleRoot sampleRange ∧
    ((∀ p s e, (p, s, e) ∈ nodesToWrap sampleRange sampleRoot ↔
      ∃ d, getNodeFromPath p sampleRoot = some (.text d) ∧
        intersectsRange sampleRange p = true ∧
        s = clipStart sampleRange p ∧ e = clipEnd sampleRange p d ∧ s < e) ∧
    (∀ w ∈ nodesToWrap sampleRange sampleRoot,
      ∃ d, getNodeFromPath w.1 sampleRoot = some (.text d) ∧
      wrapMark sampleRoot "a1" "#fef9c3" w
        = some (markElem "a1" "#fef9c3" ((d.take w.2.2).drop w.2.1))) ∧
    (highlightRange sampleRoot sampleRange "a1" "#fef9c3").2.length
        = (nodesToWrap sampleRange sampleRoot).length ∧
    (∀ m ∈ (highlightRange sampleRoot sampleRange "a1" "#fef9c3").2,
      ∃ piece, m = markElem "a1" "#fef9c3" piece) ∧
    (∀ ws1 w ws2, wrapMark sampleRoot "a1" "#fef9c3" w = none →
      (ws1 ++ w :: ws2).filterMap (wrapMark sampleRoot "a1" "#fef9c3")
        = (ws1 ++ ws2).filterMap (wrapMark sampleRoot "a1" "#fef9c3"))) :=
  ⟨⟨⟨.text "hello world".data, rfl, by decide⟩, ⟨.text "hello world".data, rfl, by decide⟩⟩,
    highlight_range_spec sampleRoot sampleRange "a1" "#fef9c3"
      ⟨⟨.text "hello world".data, rfl, by decide⟩,
        ⟨.text "hello world".data, rfl, by decide⟩⟩⟩

/-- C6.  Idempotence of highlight application: the per-annotation effect step
looks up an existing `mark[data-annotation-id]` before wrapping and skips when
one exists, so running the step a second time for the same annotation id on
the unchanged article performs no further DOM mutation — the tree after the
second application is exactly the tree after the first, leaving a single set
of marks. -/
theorem apply_highlight_idem (root : DomNode) (annId : String) (d : SerializedRange)
    (color : String) :
    applyHighlight (applyHighlight root annId d color) annId d color
      = applyHighlight root annId d color := by
  by_cases hm : hasMarkFor root annId = true
  · simp [applyHighlight, hm]
  · have hm' : hasMarkFor root annId = false := by
      exact Bool.not_eq_true _ ▸ eq_false_of_ne_true hm
    cases hd : deserializeRange d root with
    | none =>
      have ht1 : applyHighlight root annId d color = root := by
        simp [applyHighlight, hm', hd]
      rw [ht1]
      exact ht1
    | some rng =>
      have hval := deserialize_validRange d root rng hd
      have ht1 : applyHighlight root annId d color
          = applyWraps (nodesToWrap rng root) annId color root := by
        simp [applyHighlight, hm', hd, highlightRange]
      cases root with
      | text d0 =>
        have happ : applyWraps (nodesToWrap rng (.text d0)) annId color (.text d0)
            = .text d0 := rfl
        rw [ht1, happ]
        rw [ht1, happ]
      | elem tag attrs cs =>
        cases hws : nodesToWrap rng (.elem tag attrs cs) with
        | nil =>
          have happ : applyWraps ([] : List (List Nat × Nat × Nat)) annId color
              (.elem tag attrs cs) = .elem tag attrs cs := applyWraps_nil annId color _
          rw [ht1, hws, happ]
          rw [ht1, hws, happ]
        | cons w rest =>
          have hw : w ∈ nodesToWrap rng (.elem tag attrs cs) := by rw [hws]; simp
          obtain ⟨dw, hget, hs, he⟩ := nodesToWrap_bounds _ _ hval w hw
          cases hp : w.1 with
          | nil =>
            rw [hp] at hget
            simp [getNodeFromPath] at hget
          | cons j q'' =>
            rw [hp] at hget
            simp only [getNodeFromPath, childNodes] at hget
            cases hj : cs[j]? with
            | none => rw [hj] at hget; cases hget
            | some c =>
              rw [hj] at hget
              have hfind : findSpan (nodesToWrap rng (.elem tag attrs cs)) ([j] ++ q'')
                  = some w.2 := by
                rw [hws]
                simp [findSpan, List.find?, ← hp]
              have hcont := wrapNode_contains (nodesToWrap rng (.elem tag attrs cs))
                annId color q'' c [j] w.2.1 w.2.2 dw hfind hget hs he
              have hlift := wrapList_contains (nodesToWrap rng (.elem tag attrs cs))
                annId color [] cs 0 j c hj (by simpa using hcont)
              have hmark : hasMarkFor (applyWraps (nodesToWrap rng (.elem tag attrs cs))
                  annId color (.elem tag attrs cs)) annId = true := by
                rw [applyWraps, hasMarkFor, childNodes]
                exact hlift
              rw [ht1]
              simp [applyHighlight, hmark]

theorem textCharsList_append (l1 l2 : List DomNode) :
    textCharsList (l1 ++ l2) = textCharsList l1 ++ textCharsList l2 := by
  induction l1 with
  | nil => simp [textCharsList]
  | cons c cs ih => simp [textCharsList, ih]

theorem coalesce_text (l : List DomNode) :
    textCharsList (coalesce l) = textCharsList l := by
  induction l with
  | nil => rfl
  | cons c rest ih =>
    cases c with
    | elem tag attrs cs => simp [coalesce, textCharsList, ih]
    | text d =>
      by_cases hde : d.isEmpty = true
      · have hd : d = [] := by simpa using hde
        subst hd
        simp [coalesce, textCharsList, textChars, ih]
      · have hde' : d.isEmpty = false := eq_false_of_ne_true hde
        rw [coalesce, if_neg (by simp [hde'])]
        cases hcr : coalesce rest with
        | nil =>
          rw [hcr] at ih
          show textCharsList [DomNode.text d] = textCharsList (DomNode.text d :: rest)
          simp only [textCharsList, textChars, List.append_nil] at ih ⊢
          simp [← ih]
        | cons c2 rest2 =>
          cases c2 with
          | text d2 =>
            rw [hcr] at ih
            show textCharsList (DomNode.text (d ++ d2) :: rest2)
              = textCharsList (DomNode.text d :: rest)
            simp only [textCharsList, textChars] at ih ⊢
            rw [← ih, List.append_assoc]
          | elem t2 a2 cs2 =>
            rw [hcr] at ih
            show textCharsList (DomNode.text d :: DomNode.elem t2 a2 cs2 :: rest2)
              = textCharsList (DomNode.text d :: rest)
            simp only [textCharsList, textChars] at ih ⊢
            rw [← ih]

mutual

theorem normalizeNode_text : ∀ t : DomNode, textChars (normalizeNode t) = textChars t
  | .text d => rfl
  | .elem tag attrs cs => by
    rw [normalizeNode]
    show textCharsList (coalesce (normalizeList cs)) = textCharsList cs
    rw [coalesce_text, normalizeList_text cs]

theorem normalizeList_text : ∀ l : List DomNode,
    textCharsList (normalizeList l) = textCharsList l
  | [] => rfl
  | c :: cs => by
    rw [normalizeList, textCharsList, textCharsList, normalizeNode_text c,
      normalizeList_text cs]

end

mutual

theorem unwrapNode_text (annId : String) :
    ∀ t : DomNode, textCharsList (unwrapNode annId t) = textChars t
  | .text d => by simp [unwrapNode, textCharsList, textChars]
  | .elem tag attrs cs => by
    rw [unwrapNode]
    by_cases hm : (tag == "mark" && attrs.contains ("data-annotation-id", annId)) = true
    · rw [if_pos hm]
      show textCharsList (unwrapList annId cs) = textCharsList cs
      exact unwrapList_text annId cs
    · rw [if_neg hm]
      by_cases ha : cs.any (isMarkWith annId) = true
      · rw [if_pos ha]
        have h1 : textCharsList [normalizeNode (DomNode.elem tag attrs (unwrapList annId cs))]
            = textChars (normalizeNode (DomNode.elem tag attrs (unwrapList annId cs))) := by
          simp [textCharsList]
        rw [h1, normalizeNode_text]
        show textCharsList (unwrapList annId cs) = textCharsList cs
        exact unwrapList_text annId cs
      · rw [if_neg ha]
        have h1 : textCharsList [DomNode.elem tag attrs (unwrapList annId cs)]
            = textChars (DomNode.elem tag attrs (unwrapList annId cs)) := by
          simp [textCharsList]
        rw [h1]
        show textCharsList (unwrapList annId cs) = textCharsList cs
        exact unwrapList_text annId cs

theorem unwrapList_text (annId : String) :
    ∀ l : List DomNode, textCharsList (unwrapList annId l) = textCharsList l
  | [] => rfl
  | c :: cs => by
    rw [unwrapList, textCharsList_append, unwrapNode_text annId c, unwrapList_text annId cs,
      textCharsList]

end

theorem coalesce_marks (annId : String) (l : List DomNode) :
    containsMarkList annId (coalesce l) = containsMarkList annId l := by
  induction l with
  | nil => rfl
  | cons c rest ih =>
    cases c with
    | elem tag attrs cs => simp [coalesce, containsMarkList, ih]
    | text d =>
      by_cases hde : d.isEmpty = true
      · simp [coalesce, hde, containsMarkList, containsMark, ih]
      · have hde' : d.isEmpty = false := eq_false_of_ne_true hde
        rw [coalesce, if_neg (by simp [hde'])]
        cases hcr : coalesce rest with
        | nil =>
          rw [hcr] at ih
          show containsMarkList annId [DomNode.text d]
            = containsMarkList annId (DomNode.text d :: rest)
          simp only [containsMarkList, containsMark, Bool.false_or, Bool.or_false] at ih ⊢
          exact ih
        | cons c2 rest2 =>
          cases c2 with
          | text d2 =>
            rw [hcr] at ih
            show containsMarkList annId (DomNode.text (d ++ d2) :: rest2)
              = containsMarkList annId (DomNode.text d :: rest)
            simp only [containsMarkList, containsMark, Bool.false_or] at ih ⊢
            exact ih
          | elem t2 a2 cs2 =>
            rw [hcr] at ih
            show containsMarkList annId (DomNode.text d :: DomNode.elem t2 a2 cs2 :: rest2)
              = containsMarkList annId (DomNode.text d :: rest)
            simp only [containsMarkList, containsMark, Bool.false_or] at ih ⊢
            exact ih

mutual

theorem normalizeNode_marks (annId : String) :
    ∀ t : DomNode, containsMark annId (normalizeNode t) = containsMark annId t
  | .text d => rfl
  | .elem tag attrs cs => by
    rw [normalizeNode]
    show ((tag == "mark" && attrs.contains ("data-annotation-id", annId))
        || containsMarkList annId (coalesce (normalizeList cs)))
      = ((tag == "mark" && attrs.contains ("data-annotation-id", annId))
        || containsMarkList annId cs)
    rw [coalesce_marks, normalizeList_marks annId cs]

theorem normalizeList_marks (annId : String) :
    ∀ l : List DomNode, containsMarkList annId (normalizeList l) = containsMarkList annId l
  | [] => rfl
  | c :: cs => by
    rw [normalizeList, containsMarkList, containsMarkList, normalizeNode_marks annId c,
      normalizeList_marks annId cs]

end

mutual

theorem unwrapNode_marks (annId : String) :
    ∀ t : DomNode, containsMarkList annId (unwrapNode annId t) = false
  | .text d => by simp [unwrapNode, containsMarkList, containsMark]
  | .elem tag attrs cs => by
    rw [unwrapNode]
    by_cases hm : (tag == "mark" && attrs.contains ("data-annotation-id", annId)) = true
    · rw [if_pos hm]
      exact unwrapList_marks annId cs
    · have hm' : (tag == "mark" && attrs.contains ("data-annotation-id", annId)) = false :=
        eq_false_of_ne_true hm
      rw [if_neg hm]
      by_cases ha : cs.any (isMarkWith annId) = true
      · rw [if_pos ha]
        have h1 : containsMarkList annId
              [normalizeNode (DomNode.elem tag attrs (unwrapList annId cs))]
            = containsMark annId
              (normalizeNode (DomNode.elem tag attrs (unwrapList annId cs))) := by
          simp [containsMarkList]
        rw [h1, normalizeNode_marks]
        show ((tag == "mark" && attrs.contains ("data-annotation-id", annId))
            || containsMarkList annId (unwrapList annId cs)) = false
        rw [hm', unwrapList_marks annId cs]
        rfl
      · rw [if_neg ha]
        have h1 : containsMarkList annId [DomNode.elem tag attrs (unwrapList annId cs)]
            = containsMark annId (DomNode.elem tag attrs (unwrapList annId cs)) := by
          simp [containsMarkList]
        rw [h1]
        show ((tag == "mark" && attrs.contains ("data-annotation-id", annId))
            || containsMarkList annId (unwrapList annId cs)) = false
        rw [hm', unwrapList_marks annId cs]
        rfl

theorem unwrapList_marks (annId : String) :
    ∀ l : List DomNode, containsMarkList annId (unwrapList annId l) = false
  | [] => rfl
  | c :: cs => by
    rw [unwrapList, containsMarkList_append, unwrapNode_marks annId c,
      unwrapList_marks annId cs]
    rfl

end

/-- C8.  Unhighlight correctness: removing an annotation's marks splices each
mark's children back into its parent and normalizes that parent; afterwards no
mark carrying the annotation id remains anywhere in the article subtree, and
the article's text content is unchanged. -/
theorem unhighlight_spec (annId : String) (root : DomNode)
    (hroot : isMarkWith annId root = false) :
    containsMark annId (unhighlight annId root) = false ∧
    textChars (unhighlight annId root) = textChars root := by
  cases root with
  | text d => exact ⟨rfl, rfl⟩
  | elem tag attrs cs =>
    have hm : (tag == "mark" && attrs.contains ("data-annotation-id", annId)) = false := by
      simpa [isMarkWith] using hroot
    have hmne : ¬(tag == "mark" && attrs.contains ("data-annotation-id", annId)) = true := by
      intro hcontra
      rw [hm] at hcontra
      cases hcontra
    have hmarks := unwrapNode_marks annId (.elem tag attrs cs)
    have htext := unwrapNode_text annId (.elem tag attrs cs)
    by_cases ha : cs.any (isMarkWith annId) = true
    · have hx : unwrapNode annId (.elem tag attrs cs)
          = [normalizeNode (.elem tag attrs (unwrapList annId cs))] := by
        rw [unwrapNode, if_neg hmne, if_pos ha]
      rw [hx] at hmarks htext
      have hu : unhighlight annId (.elem tag attrs cs)
          = normalizeNode (.elem tag attrs (unwrapList annId cs)) := by
        rw [unhighlight, hx]
      rw [hu]
      constructor
      · simpa [containsMarkList] using hmarks
      · simpa [textCharsList] using htext
    · have hx : unwrapNode annId (.elem tag attrs cs)
          = [.elem tag attrs (unwrapList annId cs)] := by
        rw [unwrapNode, if_neg hmne, if_neg ha]
      rw [hx] at hmarks htext
      have hu : unhighlight annId (.elem tag attrs cs)
          = .elem tag attrs (unwrapList annId cs) := by
        rw [unhighlight, hx]
      rw [hu]
      constructor
      · simpa [containsMarkList] using hmarks
      · simpa [textCharsList] using htext

theorem unhighlight_spec_witness :
    isMarkWith "a7" sampleMarked = false ∧
    (containsMark "a7" (unhighlight "a7" sampleMarked) = false ∧
      textChars (unhighlight "a7" sampleMarked) = textChars sampleMarked) :=
  ⟨rfl, unhighlight_spec "a7" sampleMarked rfl⟩
